import Mathlib

/-!
Verification development for the `solipsism` agent-orchestration runtime.

The definitions below are a shallow embedding of the Python sources:
  * `src/solipsism/core/lpml.py`    — the LPML protocol layer (`parse`, `deparse`,
    `findall`, `generate_element` and their helpers);
  * `src/solipsism/core/system.py`  — the per-context dispatcher (`System`);
  * `src/solipsism/core/manager.py` — the context-tree registry and router (`Manager`);
  * `src/solipsism/tools/manager_tools.py` — the intrinsic `send` tool;
  * `src/solipsism/core/context.py` — the per-context turn-taking state machine.

Python strings are `String` / `List Char`; Python dicts that carry attributes are
insertion-ordered association lists; the `asyncio` queues are explicit FIFO lists
threaded through the state; `print` diagnostics are returned as lists of warning
strings.  Recursions that Python expresses as unbounded loops are given an explicit
fuel argument; every call site passes fuel that is visibly sufficient (each loop
step consumes at least one character / one list entry).
-/

/-! ## LPML data model (`lpml.py`)

Python's `Element` is `{tag: str, attributes: dict, content: None | list}`, and a
tree (`LPMLTree`) is a list of strings and elements.  `content = None` is a
self-closing tag.  Content produced by `generate_element` is a plain string in
Python; a plain string behaves exactly like a one-string list under `deparse` and
`findall` (iterating a string yields its characters, all of which are strings), and
is embedded as the one-string list. -/

inductive LItem where
  | text : String → LItem
  | elem : String → List (String × String) → Option (List LItem) → LItem
deriving Repr

abbrev LPMLTree := List LItem

/-- Python's `\s` on the ASCII range (`str` patterns): space, tab, newline,
carriage return, form feed, vertical tab. -/
def pySpace (c : Char) : Bool :=
  c = ' ' || c = '\t' || c = '\n' || c = '\r' || c = '\x0b' || c = '\x0c'

/-- Characters allowed in a tag name: `[^/>\s\n]` from `PATTERN_TAG_START`. -/
def nameChar (c : Char) : Bool :=
  !(c = '/' || c = '>' || pySpace c)

def singleQuote : Char := '\''

/-- Characters allowed in an attribute name: `[^"'/<> -]` from `PATTERN_ATTRIBUTE`. -/
def attrNameChar (c : Char) : Bool :=
  !(c = '"' || c = singleQuote || c = '/' || c = '<' || c = '>' || c = ' ' || c = '-')

/-- One quoted value: `(?:"[^"]*"|'[^']*')`.  Returns the value text and the
number of characters consumed (both quotes included).
(`_parse_attributes` evaluates `v1 or v2`: for a double-quoted match the first
group, otherwise the second; either way the quoted text, an empty value staying
empty.) -/
def matchQuoted : List Char → Option (String × Nat)
  | '"' :: cs2 =>
    let v := cs2.takeWhile (fun c => !(c = '"'))
    match cs2.dropWhile (fun c => !(c = '"')) with
    | '"' :: _ => some (⟨v⟩, 1 + v.length + 1)
    | _ => none
  | q :: cs2 =>
    if q = singleQuote then
      let v := cs2.takeWhile (fun c => !(c = singleQuote))
      match cs2.dropWhile (fun c => !(c = singleQuote)) with
      | q2 :: _ => if q2 = singleQuote then some (⟨v⟩, 1 + v.length + 1) else none
      | _ => none
    else none
  | _ => none

/-- One attribute of `PATTERN_ATTRIBUTE_NO_CAPTURE`: a single space, a nonempty
attribute name, `=`, then a quoted value.  Returns the pair and the number of
characters consumed.  `=` itself lies in the name class `[^"'/<> -]`, so the
greedy name run includes the separating `=`; the regex backtracks exactly one
character (the quote after the run is not a name character, so the `=` eaten by
the pattern must be the last character of the run — an `=` earlier in the run is
followed by another name character, never by a quote).  Hence: the run must end
in `=`, and the attribute name is the run without it. -/
def matchAttr : List Char → Option ((String × String) × Nat)
  | ' ' :: cs =>
    let run := cs.takeWhile attrNameChar
    if run.length < 2 then none
    else if run.getLastD ' ' = '=' then
      match matchQuoted (cs.drop run.length) with
      | some (v, qn) => some ((⟨run.dropLast⟩, v), 1 + run.length + qn)
      | none => none
    else none
  | _ => none

/-- Python dict insertion: a repeated key keeps its first position but takes the
last value (`attributes[k] = ...` in `_parse_attributes`). -/
def dictInsert (m : List (String × String)) (k v : String) : List (String × String) :=
  match m with
  | [] => [(k, v)]
  | (k', v') :: rest =>
    if k' = k then (k', v) :: rest else (k', v') :: dictInsert rest k v

/-- The `(?: attr)*` loop of the tag patterns, accumulated left to right through
`_parse_attributes`' dict.  Returns the attribute dict and the total number of
characters consumed.  Fuel: each attribute consumes at least one character. -/
def matchAttrs : Nat → List (String × String) → List Char → List (String × String) × Nat
  | 0, acc, _ => (acc, 0)
  | fuel + 1, acc, cs =>
    match matchAttr cs with
    | none => (acc, 0)
    | some ((k, v), n) =>
      let (d, m) := matchAttrs fuel (dictInsert acc k v) (cs.drop n)
      (d, n + m)

/-- A scanned tag token: the three alternatives of `PATTERN_TAG`. -/
inductive Tok where
  | start : String → List (String × String) → Tok
  | stop : String → Tok
  | empty : String → List (String × String) → Tok
deriving Repr

/-- Try to match one of `PATTERN_TAG_START` / `PATTERN_TAG_END` / `PATTERN_TAG_EMPTY`
at the head of `cs`.  Returns the token and the number of characters consumed.
Python's alternation tries the three patterns in that order: start and empty both
require a name character (never `/`) right after `<` while the end pattern requires
`/`, so the character after `<` selects the branch.  The greedy name run, attribute
loop and trailing `\s*` are each uniquely delimited, so no backtracking can rescue
a failed match. -/
def matchTagAt (cs : List Char) : Option (Tok × Nat) :=
  match cs with
  | '<' :: '/' :: cs2 =>
    let name := cs2.takeWhile nameChar
    if name.isEmpty then none
    else
      let cs3 := cs2.dropWhile nameChar
      let ws := cs3.takeWhile pySpace
      match cs3.dropWhile pySpace with
      | '>' :: _ => some (.stop ⟨name⟩, 2 + name.length + ws.length + 1)
      | _ => none
  | '<' :: cs2 =>
    let name := cs2.takeWhile nameChar
    if name.isEmpty then none
    else
      let cs3 := cs2.dropWhile nameChar
      let (attrs, alen) := matchAttrs cs3.length [] cs3
      let cs4 := cs3.drop alen
      let ws := cs4.takeWhile pySpace
      match cs4.dropWhile pySpace with
      | '>' :: _ => some (.start ⟨name⟩ attrs, 1 + name.length + alen + ws.length + 1)
      | '/' :: '>' :: _ => some (.empty ⟨name⟩ attrs, 1 + name.length + alen + ws.length + 2)
      | _ => none
  | _ => none

/-- One record of the scan: the literal text before the match, the absolute
position of the match, the token, and the exact matched text. -/
structure TokRec where
  pre : List Char
  pos : Nat
  tok : Tok
  txt : List Char
deriving Repr

/-- `re.finditer(PATTERN_TAG, text)`: at each position try a tag match; a match is
consumed whole, otherwise the character is literal text (collected, reversed, in
`acc`).  Also returns the trailing literal text after the last match.  Fuel: every
step consumes at least one character. -/
def scanAux : Nat → List Char → Nat → List Char → List TokRec × List Char
  | 0, cs, _, acc => ([], acc.reverse ++ cs)
  | _ + 1, [], _, acc => ([], acc.reverse)
  | fuel + 1, c :: cs, pos, acc =>
    match matchTagAt (c :: cs) with
    | some (tok, n) =>
      let (toks, trail) := scanAux fuel ((c :: cs).drop n) (pos + n) []
      ({ pre := acc.reverse, pos := pos, tok := tok, txt := (c :: cs).take n } :: toks, trail)
    | none => scanAux fuel cs (pos + 1) (c :: acc)

def scan (cs : List Char) : List TokRec × List Char :=
  scanAux (cs.length + 1) cs 0 []

/-! ### Backtick protection (`parse` step 1 and `_restore_protected_content`)

`parse` first replaces every backtick-delimited span (`PATTERN_BACKTICK`, lazy,
DOTALL) by a unique placeholder and records the original; after tree building the
placeholders are replaced back inside every string of the tree, recursively.  The
Python code draws placeholders from `uuid4().hex`; they are modelled as the
deterministic sequence `__PROTECTED_0__`, `__PROTECTED_1__`, … which shares the
inert delimiting shape (no backtick, no angle bracket, never a substring of a
later placeholder). -/

def backtick : Char := Char.ofNat 96

def protectAux : Nat → Nat → List Char → List Char × List (String × String)
  | 0, _, cs => (cs, [])
  | fuel + 1, n, cs =>
    let pre := cs.takeWhile (fun c => !(c = backtick))
    match cs.dropWhile (fun c => !(c = backtick)) with
    | [] => (cs, [])
    | _ :: rest2 =>
      let inner := rest2.takeWhile (fun c => !(c = backtick))
      match rest2.dropWhile (fun c => !(c = backtick)) with
      | [] => (cs, [])
      | _ :: rest3 =>
        let ph := "__PROTECTED_" ++ Nat.repr n ++ "__"
        let orig : String := ⟨backtick :: (inner ++ [backtick])⟩
        let (tail, maps) := protectAux fuel (n + 1) rest3
        (pre ++ ph.toList ++ tail, (ph, orig) :: maps)

/-- `str.replace(pat, repl)`: non-overlapping left-to-right replacement; the
replacement itself is not rescanned.  Fuel: each step consumes at least one input
character (placeholder patterns are nonempty). -/
def replaceAllAux : Nat → List Char → List Char → List Char → List Char
  | 0, _, _, cs => cs
  | fuel + 1, pat, repl, cs =>
    match cs with
    | [] => []
    | c :: rest =>
      if pat.isPrefixOf cs then repl ++ replaceAllAux fuel pat repl (cs.drop pat.length)
      else c :: replaceAllAux fuel pat repl rest

def pyReplace (s pat repl : String) : String :=
  ⟨replaceAllAux (s.length + 1) pat.toList repl.toList s.toList⟩

/-- The per-string loop of `_restore_protected_content`: restore every recorded
placeholder, in insertion order. -/
def restoreStr (protMap : List (String × String)) (s : String) : String :=
  protMap.foldl (fun s po => pyReplace s po.1 po.2) s

mutual

/-- `_restore_protected_content` on one tree item: strings are restored; an
element keeps its tag and attributes and has its content restored when it is a
list (a `None` content stays `None`). -/
def restoreItem (m : List (String × String)) : LItem → LItem
  | .text s => .text (restoreStr m s)
  | .elem t a c => .elem t a (restoreContent m c)

def restoreContent (m : List (String × String)) : Option (List LItem) → Option (List LItem)
  | none => none
  | some l => some (restoreList m l)

def restoreList (m : List (String × String)) : List LItem → List LItem
  | [] => []
  | x :: xs => restoreItem m x :: restoreList m xs

end

/-! ### The element stack of `parse`

Python mutates a stack of element dicts, each already appended (by reference) to
its parent's content.  Functionally: the stack holds open frames, top first, root
sentinel last; closing a frame materialises it as an element at the end of the
frame below.  Truncating the Python stack to length `k` closes all frames above. -/

structure Frame where
  tag : String
  attrs : List (String × String)
  acc : List LItem
deriving Repr

def closeOne : List Frame → List Frame
  | f :: g :: rest => { g with acc := g.acc ++ [.elem f.tag f.attrs (some f.acc)] } :: rest
  | s => s

/-- `stack = stack[:k]` (for `k ≥ 1`): close top frames until `k` remain. -/
def closeToLen : Nat → Nat → List Frame → List Frame
  | 0, _, s => s
  | fuel + 1, k, s => if s.length ≤ k then s else closeToLen fuel k (closeOne s)

/-- `str.strip()` on the ASCII range. -/
def pyStripChars (cs : List Char) : List Char :=
  ((cs.dropWhile pySpace).reverse.dropWhile pySpace).reverse

/-- `if strip: content_str = content_str.strip()`; `if content_str: append`. -/
def pushText (strip : Bool) (cs : List Char) (s : List Frame) : List Frame :=
  let cs := if strip then pyStripChars cs else cs
  if cs.isEmpty then s
  else
    match s with
    | f :: rest => { f with acc := f.acc ++ [.text ⟨cs⟩] } :: rest
    | [] => s

def appendItem : List Frame → LItem → List Frame
  | f :: rest, it => { f with acc := f.acc ++ [it] } :: rest
  | [], _ => []

/-- Parser fold state: the literal text accumulated since the cursor (which does
not advance past tags skipped inside an excluded body), the active `tag_exclude`,
the frame stack, and the printed warnings. -/
structure PState where
  pending : List Char
  excl : Option String
  stack : List Frame
  warns : List String
deriving Repr

/-- A tag skipped inside an excluded body: the cursor does not advance, so the
skipped text (including the tag itself) stays in the pending literal run. -/
def doSkip (st : PState) (r : TokRec) : PState :=
  { st with pending := st.pending ++ r.pre ++ r.txt }

/-- Process one recognised tag: flush the pending literal run into the current
frame, then perform the tag action (`parse`'s three `elif` branches).  An
unmatched end tag warns, keeps the tag text as literal content, and runs
`stack = stack[:max(1, ind_tag_start)]` where `ind_tag_start` is still bound to
the character position of the match (the matched branch rebinds it to the stack
index `i` first). -/
def doTok (strip : Bool) (exclude : List String) (st : PState) (r : TokRec) : PState :=
  let stack1 := pushText strip (st.pending ++ r.pre) st.stack
  match r.tok with
  | .start name attrs =>
    { pending := []
      warns := st.warns
      excl := if exclude.contains name then some name else st.excl
      stack := ⟨name, attrs, []⟩ :: stack1 }
  | .empty name attrs =>
    { st with pending := [], stack := appendItem stack1 (.elem name attrs none) }
  | .stop name =>
    match (stack1.dropLast).findIdx? (fun f => f.tag = name) with
    | some j =>
      { st with
        pending := []
        stack := closeToLen stack1.length (stack1.length - 1 - j) stack1 }
    | none =>
      let stack2 := appendItem stack1 (.text ⟨r.txt⟩)
      { pending := []
        excl := st.excl
        warns := st.warns ++ ["Warning: Unmatched closing tag </" ++ name ++ "> found."]
        stack := closeToLen stack2.length (max 1 r.pos) stack2 }

/-- One iteration of `parse`'s `finditer` loop: while `tag_exclude` is set, only
the matching end tag is processed (clearing the flag); everything else is
skipped without advancing the cursor. -/
def parseStep (strip : Bool) (exclude : List String) (st : PState) (r : TokRec) : PState :=
  match st.excl with
  | some ex =>
    match r.tok with
    | .stop name =>
      if name = ex then doTok strip exclude { st with excl := none } r else doSkip st r
    | _ => doSkip st r
  | none => doTok strip exclude st r

def pyListRepr (xs : List String) : String :=
  "[" ++ String.intercalate ", " (xs.map (fun s => "'" ++ s ++ "'")) ++ "]"

/-- `parse(text, strip, exclude)` together with its printed diagnostics. -/
def parseAux (text : String) (strip : Bool) (exclude : List String) :
    LPMLTree × List String :=
  let (ptext, protMap) := protectAux (text.length + 1) 0 text.toList
  let (toks, trail) := scan ptext
  let st0 : PState := { pending := [], excl := none, stack := [⟨"root", [], []⟩], warns := [] }
  let st1 := toks.foldl (parseStep strip exclude) st0
  let stackF := pushText strip (st1.pending ++ trail) st1.stack
  let warns :=
    if stackF.length > 1 then
      st1.warns ++ ["Warning: Unclosed elements remain: " ++
        pyListRepr ((stackF.reverse.drop 1).map Frame.tag)]
    else st1.warns
  let tree :=
    match closeToLen stackF.length 1 stackF with
    | f :: _ => f.acc
    | [] => []
  (restoreList protMap tree, warns)

/-- `lpml.parse` (the returned tree; diagnostics are printed, not returned). -/
def parse (text : String) (strip : Bool) (exclude : List String) : LPMLTree :=
  (parseAux text strip exclude).1

/-- `_repr_tag(tag, content, **kwargs)`: attribute rendering.  Note that the
self-closing form `emp` is rendered without the attributes. -/
def reprAttrs (attrs : List (String × String)) : String :=
  match attrs with
  | [] => ""
  | _ => " " ++ String.intercalate " " (attrs.map (fun kv => kv.1 ++ "=\"" ++ kv.2 ++ "\""))

def _repr_tag (tag : String) (content : Option String) (attrs : List (String × String)) :
    String :=
  match content with
  | none => "<" ++ tag ++ "/>"
  | some c => "<" ++ tag ++ reprAttrs attrs ++ ">" ++ c ++ "</" ++ tag ++ ">"

mutual

def deparseItem : LItem → String
  | .text s => s
  | .elem t a c => _repr_tag t (deparseContent c) a

def deparseContent : Option (List LItem) → Option String
  | none => none
  | some l => some (deparse l)

/-- `lpml.deparse`. -/
def deparse : List LItem → String
  | [] => ""
  | x :: xs => deparseItem x ++ deparse xs

end

mutual

def findallItem (tag : String) : LItem → List LItem
  | .text _ => []
  | .elem t a c => (if t = tag then [.elem t a c] else []) ++ findallContent tag c

def findallContent (tag : String) : Option (List LItem) → List LItem
  | none => []
  | some l => findall l tag

/-- `lpml.findall`: complete pre-order traversal, duplicates included. -/
def findall : List LItem → String → List LItem
  | [], _ => []
  | x :: xs, tag => findallItem tag x ++ findall xs tag

end

/-- `lpml.generate_element` (its `content` argument is a plain string in every
caller; see the data-model note). -/
def generate_element (tag : String) (content : String)
    (attributes : List (String × String)) : LItem :=
  .elem tag attributes (some [.text content])

/-! ## Dispatcher (`system.py`)

`System.process_llm_output` parses the LLM output with an exclusion list — the
framework control tags plus every registered tool tag except `create_context` —
then schedules one `tool.run(element)` task per `findall` match per registered
tool, returning the scheduled count.  The registry `self.tools` is an
insertion-ordered dict, embedded as the list of tool names in registration
order. -/

def systemExcludeList (tools : List String) : List String :=
  ["define_tag", "rule", "send", "code"] ++ tools.filter (fun k => !(k = "create_context"))

def process_llm_output (tools : List String) (lpml_string : String) : Nat :=
  let tree := parse lpml_string false (systemExcludeList tools)
  (tools.map (fun name => (findall tree name).length)).sum

/-! ## Manager (`manager.py`)

The registry is an insertion-ordered dict `id → Context`.  Routing and context
creation read and write only these per-context fields: `parent_id`, `child_ids`,
and the context's dispatcher `result_queue`; the embedded record carries exactly
those. -/

structure MCtx where
  parentId : Option String
  childIds : List String
  queue : List LItem
deriving Repr

abbrev MState := List (String × MCtx)

/-- `Manager.get_context`. -/
def get_context (m : MState) (cid : String) : Option MCtx :=
  match m with
  | [] => none
  | (k, c) :: rest => if k = cid then some c else get_context rest cid

def mupdate (m : MState) (cid : String) (f : MCtx → MCtx) : MState :=
  match m with
  | [] => []
  | (k, c) :: rest => if k = cid then (k, f c) :: rest else (k, c) :: mupdate rest cid f

/-- `Manager.add_context`: a duplicate id is a no-op (with a warning). -/
def add_context (m : MState) (cid : String) (c : MCtx) : MState :=
  if (get_context m cid).isSome then m else m ++ [(cid, c)]

/-- `Manager.route_message`: unknown ids fail; only the `parent_id` back edge or a
`child_ids` forward edge is authorized; on success the element is enqueued on the
destination's `result_queue`. -/
def route_message (m : MState) (from_id to_id : String) (element : LItem) :
    Bool × MState :=
  match get_context m from_id, get_context m to_id with
  | some fc, some _ =>
    let is_to_parent := fc.parentId = some to_id
    let is_to_child := fc.childIds.contains to_id
    if is_to_parent || is_to_child then
      (true, mupdate m to_id (fun c => { c with queue := c.queue ++ [element] }))
    else (false, m)
  | _, _ => (false, m)

/-- The mutation suffix of `Manager.create_new_context`, reached only when no
naming collision was raised: record the child under a registered parent's
`child_ids`, then register the new context. -/
def finishCreate (m : MState) (parent_id new_id : String) : MState × Except String String :=
  let m1 :=
    if (get_context m parent_id).isSome then
      mupdate m parent_id (fun c => { c with childIds := c.childIds ++ [new_id] })
    else m
  (add_context m1 new_id ⟨some parent_id, [], []⟩, .ok new_id)

/-- `Manager.create_new_context`, with the Manager state threaded explicitly and
the raised `ValueError` as an `Except.error` result.  Building the fresh LLM, the
fresh dispatcher, the granted tools and the `Context` object itself touches no
Manager state, so the model starts at the `custom_id` collision check, which in
the source precedes every mutation of `self.contexts` and of the parent's
`child_ids`.  `fresh_id` stands for the generated 8-character id. -/
def create_new_context (m : MState) (parent_id : String) (fresh_id : String)
    (custom_id : Option String) : MState × Except String String :=
  match custom_id with
  | some cid =>
    if (get_context m cid).isSome then
      (m, .error ("Context ID '" ++ cid ++ "' already exists."))
    else finishCreate m parent_id cid
  | none => finishCreate m parent_id fresh_id

/-! ## The intrinsic `send` tool (`manager_tools.py`)

`SendTool.run(element)` reports errors as `output` elements on its own
dispatcher's `result_queue`; a successful send enqueues the `send` message on
the destination's queue via `Manager.route_message` and puts nothing on its own
queue ("On success, no feedback is returned", `DEFINE_SEND`).  Every error put
is the call `generate_element("output", …, tool=self.name, **attributes)`: the
keyword expansion raises `TypeError` at the call — before the `put` — whenever
the invoking element's attributes rebind `tag`, `content` (the positional
parameters of `generate_element`) or `tool` (the explicit keyword); the
unhandled exception kills the tool task and nothing is enqueued.  Otherwise the
output attributes are `dict(tool=self.name, **attributes)` — the `tool` key
first, then the invoking element's attributes. -/

def aget (attrs : List (String × String)) (k : String) : Option String :=
  match attrs with
  | [] => none
  | (k', v) :: rest => if k' = k then some v else aget rest k

/-- Parameter names already bound at the call
`generate_element("output", f"…", tool=self.name, **attributes)`. -/
def sendReservedKeys : List String := ["tag", "content", "tool"]

/-- The keyword expansion `**attributes` at that call succeeds iff no attribute
rebinds a bound parameter name. -/
def sendKwargsOk (attributes : List (String × String)) : Bool :=
  attributes.all (fun kv => !(sendReservedKeys.contains kv.1))

/-- Result of `SendTool.run`: the elements enqueued on the tool's own
dispatcher's `result_queue`, the Manager state after, and whether a `TypeError`
escaped `run` (killing the tool task). -/
structure SendRun where
  put : List LItem
  mgr : MState
  raised : Bool
deriving Repr

/-- One error put `await result_queue.put(generate_element("output", …,
tool=self.name, **attributes))`: one `output` element when the expansion is
legal, otherwise the `TypeError` propagates and nothing is enqueued. -/
def sendPut (msg : String) (attributes : List (String × String)) (m : MState) : SendRun :=
  if sendKwargsOk attributes then
    ⟨[generate_element "output" ("\n" ++ msg ++ "\n") (("tool", "send") :: attributes)],
      m, false⟩
  else ⟨[], m, true⟩

def sendResolved (m : MState) (from_id : String) (attributes : List (String × String))
    (content : Option (List LItem)) (actual_to_id : String) : SendRun :=
  let message_to_send : LItem :=
    .elem "send" [("from", from_id), ("to", actual_to_id)] content
  match route_message m from_id actual_to_id message_to_send with
  | (true, m') => ⟨[], m', false⟩
  | (false, m') =>
    sendPut ("Error: Failed to send message to '" ++ actual_to_id ++
      "'. Not found or permission denied.") attributes m'

/-- `SendTool.run`.  `context_id` is the owning dispatcher's back reference
(`self.system.context_id`, `None` until a Context adopts the dispatcher);
`run` is only ever invoked on element nodes (`findall` results), so the
`text` case is vacuous. -/
def sendToolRun (m : MState) (context_id : Option String) (element : LItem) :
    SendRun :=
  match element with
  | .text _ => ⟨[], m, false⟩
  | .elem _ attributes content =>
    let to_id_raw := aget attributes "to"
    if to_id_raw = none ∨ to_id_raw = some "" then
      sendPut "Error: The 'to' attribute is missing." attributes m
    else
      match context_id with
      | none =>
        sendPut "Error: Sender context 'None' not found in Manager." attributes m
      | some from_id =>
        match get_context m from_id with
        | none =>
          sendPut ("Error: Sender context '" ++ from_id ++ "' not found in Manager.")
            attributes m
        | some fc =>
          if to_id_raw = some "parent" then
            match fc.parentId with
            | some p => sendResolved m from_id attributes content p
            | none => sendPut "Error: This context has no parent." attributes m
          else sendResolved m from_id attributes content (to_id_raw.getD "")

/-! ## Context (`context.py`)

One agent's turn loop.  The visible state is the conversation history, the
`ContextState`, the turn counter, and the dispatcher's `result_queue`.  The
asynchronous environment of a turn — the LLM response, the results that arrive
during the bounded collection window, the message or cancellation that ends a
`wait`, and the wall-clock timestamps — is supplied per turn by a `TurnEnv`. -/

inductive ContextState where
  | idle
  | running
  | waiting
  | terminated
deriving Repr, DecidableEq

structure CtxState where
  history : List LItem
  state : ContextState
  turnCount : Nat
  queue : List LItem
deriving Repr

/-- `Context._add_to_history`: the entry carries the current turn count and a
timestamp, and the content is wrapped in newlines. -/
def _add_to_history (turnCount : Nat) (timestamp : String) (tag content : String) :
    LItem :=
  .elem tag [("turn", toString turnCount), ("timestamp", timestamp)]
    (some [.text ("\n" ++ content ++ "\n")])

/-- Case-insensitive prefix test against an already-lowercase ASCII pattern. -/
def ciPrefix : List Char → List Char → Bool
  | [], _ => true
  | _ :: _, [] => false
  | p :: ps, c :: cs => p = c.toLower && ciPrefix ps cs

/-- `re.sub(r'<assistant[^>]*>', '', s, flags=IGNORECASE)`. -/
def stripAssistantOpen : Nat → List Char → List Char
  | 0, cs => cs
  | _ + 1, [] => []
  | fuel + 1, c :: cs =>
    if ciPrefix "<assistant".toList (c :: cs) then
      let rest := (c :: cs).drop 10
      match rest.dropWhile (fun x => !(x = '>')) with
      | '>' :: r2 => stripAssistantOpen fuel r2
      | _ => c :: stripAssistantOpen fuel cs
    else c :: stripAssistantOpen fuel cs

/-- `re.sub(r'</assistant>', '', s, flags=IGNORECASE)`. -/
def stripAssistantClose : Nat → List Char → List Char
  | 0, cs => cs
  | _ + 1, [] => []
  | fuel + 1, c :: cs =>
    if ciPrefix "</assistant>".toList (c :: cs) then
      stripAssistantClose fuel ((c :: cs).drop 12)
    else c :: stripAssistantClose fuel cs

/-- `Context._sanitize_llm_response`: strip echoed `<assistant>` markup, then
`str.strip()`. -/
def _sanitize_llm_response (s : String) : String :=
  let cs := stripAssistantOpen (s.length + 1) s.toList
  ⟨pyStripChars (stripAssistantClose (cs.length + 1) cs)⟩

/-- The asynchronous environment of one loop iteration:
`resp = none` models an LLM response with no usable text part;
`arrivals` are the results that reach the queue within this turn's collection
window (empty models the 30-second timeout with nothing arriving);
`waitMsg` is consulted only when the turn blocks on an empty queue under a
`<wait>` tag — `some` is the awakening message, `none` is cancellation;
`ts1`/`ts2` are the timestamps of the entries the turn may append. -/
structure TurnEnv where
  resp : Option String
  arrivals : List LItem
  waitMsg : Option LItem
  ts1 : String
  ts2 : String

def nudgeMessage : String :=
  "The system is waiting for your next action. " ++
  "Use a tool, or use `<wait>` to pause, or `<finish>` to terminate."

/-- One iteration of `Context.start`'s loop (steps 1–8 of the body; the
`turn_sleep` pause has no observable effect on the state).  Note the source's
line 175: `if findall(response_tree, "finish") and False:` — the conjunction
with `False` is embedded verbatim. -/
def turnBody (tools : List String) (env : TurnEnv) (s : CtxState) : CtxState :=
  let llm_response_str :=
    match env.resp with
    | some t => t
    | none => "<error>LLM response is empty or invalid.</error>"
  let sanitized_response := _sanitize_llm_response llm_response_str
  let s1 : CtxState :=
    { s with history :=
        s.history ++ [_add_to_history s.turnCount env.ts1 "assistant" sanitized_response] }
  let response_tree := parse sanitized_response false []
  if !(findall response_tree "finish").isEmpty && false then
    { s1 with state := .terminated }
  else
    let num_tasks := process_llm_output tools sanitized_response
    let collect := num_tasks > 0 || !s1.queue.isEmpty
    let all_results := if collect then s1.queue ++ env.arrivals else []
    let s2 : CtxState :=
      if collect then { s1 with queue := [] }
      else { s1 with queue := s1.queue ++ env.arrivals }
    if !all_results.isEmpty then
      let results_elements :=
        ((all_results.map (fun x => [x, LItem.text "\n\n"])).flatten).dropLast
      let tool_results_lpml := deparse results_elements
      { s2 with
        turnCount := s2.turnCount + 1
        history := s2.history ++
          [_add_to_history (s2.turnCount + 1) env.ts2 "system" tool_results_lpml] }
    else if !(findall response_tree "wait").isEmpty then
      match s2.queue with
      | new_message :: rest =>
        { s2 with
          state := .running
          turnCount := s2.turnCount + 1
          queue := rest
          history := s2.history ++
            [_add_to_history (s2.turnCount + 1) env.ts2 "system" (deparse [new_message])] }
      | [] =>
        match env.waitMsg with
        | some new_message =>
          { s2 with
            state := .running
            turnCount := s2.turnCount + 1
            history := s2.history ++
              [_add_to_history (s2.turnCount + 1) env.ts2 "system" (deparse [new_message])] }
        | none => { s2 with state := .terminated }
    else
      { s2 with
        turnCount := s2.turnCount + 1
        history := s2.history ++
          [_add_to_history (s2.turnCount + 1) env.ts2 "system" nudgeMessage] }

/-- The `while turn_count <= max_turns and state != TERMINATED` loop.  Every
iteration either increments `turn_count` or reaches `TERMINATED`, so
`max_turns + 1` fuel is sufficient for the loop to exit by its own condition. -/
def startLoop (tools : List String) (env : Nat → TurnEnv) (max_turns : Nat) :
    Nat → CtxState → CtxState
  | 0, s => s
  | fuel + 1, s =>
    if s.turnCount ≤ max_turns ∧ s.state ≠ ContextState.terminated then
      startLoop tools env max_turns fuel (turnBody tools (env s.turnCount) s)
    else s

/-- `Context.start`: a no-op unless Idle; otherwise record the initial `system`
entry, run the loop, and force `TERMINATED` on any non-terminated exit. -/
def Context.start (tools : List String) (env : Nat → TurnEnv) (selfId : String)
    (parentId : Option String) (initial_task : Option String) (ts0 : String)
    (max_turns : Nat) (s : CtxState) : CtxState :=
  if s.state ≠ ContextState.idle then s
  else
    let initial_message :=
      "context id: " ++ selfId ++
      (match parentId with
       | some p => if p.isEmpty then "" else "\nparent id: " ++ p
       | none => "") ++
      (match initial_task with
       | some t => "\nTask: " ++ t
       | none => "")
    let s1 : CtxState := { s with state := .running, turnCount := 1 }
    let s2 : CtxState :=
      { s1 with history := s1.history ++ [_add_to_history 1 ts0 "system" initial_message] }
    let s3 := startLoop tools env max_turns (max_turns + 1) s2
    if s3.state ≠ ContextState.terminated then { s3 with state := .terminated } else s3

/-! ## Derived definitions used by the claims

`doTokNT`/`parseAuxNT` restate the parser with the unmatched-end-tag branch doing
exactly what the specification describes — warn, keep the literal tag text at the
current nesting level, and leave every open frame untouched — omitting the
source's residual `stack = stack[:max(1, ind_tag_start)]` slice (whose index is
the match's character position).  Claim C5 is settled by proving the source
parser equal to this one on every input. -/

def doTokNT (strip : Bool) (exclude : List String) (st : PState) (r : TokRec) : PState :=
  let stack1 := pushText strip (st.pending ++ r.pre) st.stack
  match r.tok with
  | .start name attrs =>
    { pending := []
      warns := st.warns
      excl := if exclude.contains name then some name else st.excl
      stack := ⟨name, attrs, []⟩ :: stack1 }
  | .empty name attrs =>
    { st with pending := [], stack := appendItem stack1 (.elem name attrs none) }
  | .stop name =>
    match (stack1.dropLast).findIdx? (fun f => f.tag = name) with
    | some j =>
      { st with
        pending := []
        stack := closeToLen stack1.length (stack1.length - 1 - j) stack1 }
    | none =>
      { pending := []
        excl := st.excl
        warns := st.warns ++ ["Warning: Unmatched closing tag </" ++ name ++ "> found."]
        stack := appendItem stack1 (.text ⟨r.txt⟩) }

def parseStepNT (strip : Bool) (exclude : List String) (st : PState) (r : TokRec) : PState :=
  match st.excl with
  | some ex =>
    match r.tok with
    | .stop name =>
      if name = ex then doTokNT strip exclude { st with excl := none } r else doSkip st r
    | _ => doSkip st r
  | none => doTokNT strip exclude st r

def parseAuxNT (text : String) (strip : Bool) (exclude : List String) :
    LPMLTree × List String :=
  let (ptext, protMap) := protectAux (text.length + 1) 0 text.toList
  let (toks, trail) := scan ptext
  let st0 : PState := { pending := [], excl := none, stack := [⟨"root", [], []⟩], warns := [] }
  let st1 := toks.foldl (parseStepNT strip exclude) st0
  let stackF := pushText strip (st1.pending ++ trail) st1.stack
  let warns :=
    if stackF.length > 1 then
      st1.warns ++ ["Warning: Unclosed elements remain: " ++
        pyListRepr ((stackF.reverse.drop 1).map Frame.tag)]
    else st1.warns
  let tree :=
    match closeToLen stackF.length 1 stackF with
    | f :: _ => f.acc
    | [] => []
  (restoreList protMap tree, warns)

/-- A tree item that is a literal string. -/
def isTextItem : LItem → Bool
  | .text _ => true
  | .elem _ _ _ => false

def contentAllText : Option (List LItem) → Bool
  | none => true
  | some l => l.all isTextItem

mutual

/-- Every element of the tree whose tag lies in `excl` has pure literal content:
the body of an excluded tag was never parsed into child elements. -/
def sealedItem (excl : List String) : LItem → Bool
  | .text _ => true
  | .elem t _ c => (if excl.contains t then contentAllText c else true) && sealedContent excl c

def sealedContent (excl : List String) : Option (List LItem) → Bool
  | none => true
  | some l => sealedList excl l

def sealedList (excl : List String) : List LItem → Bool
  | [] => true
  | x :: xs => sealedItem excl x && sealedList excl xs

end


/-! ## Theorems -/

/-- C1: the specification says a `finish` element makes `Context.start` set
Terminated and end the turn with zero tool executions even when a tool tag is
present.  The source's check (`context.py:175`) reads
`if findall(response_tree, "finish") and False:` — the `and False` makes the
branch dead, contradicting its own log message and the nudge text that tells the
model to use `<finish>` to terminate.  Evaluated at a response carrying both
`<finish/>` and a registered `<bash>` tool tag: one execution is scheduled and
the state stays Running. -/
theorem c1_finish_check_disabled :
    (findall (parse "<finish/>\n<bash>ls</bash>" false []) "finish").length = 1 ∧
    process_llm_output ["bash", "send", "create_context"] "<finish/>\n<bash>ls</bash>" = 1 ∧
    (turnBody ["bash", "send", "create_context"]
        ⟨some "<finish/>\n<bash>ls</bash>", [], none, "T1", "T2"⟩
        ⟨[], ContextState.running, 1, []⟩).state = ContextState.running :=
  ⟨rfl, rfl, rfl⟩

/-- C2 counterexample: the round-trip claim asserts that the attributes of
self-closing tags are preserved by `deparse`; `_repr_tag` renders a `None`
content as `<tag/>`, dropping the attributes. -/
theorem c2_counterexample :
    deparse (parse "<a x=\"1\"/>" false []) = "<a/>" ∧
    parse "<a x=\"1\"/>" false [] = [.elem "a" [("x", "1")] none] ∧
    deparse (parse "<a x=\"1\"/>" false []) ≠ "<a x=\"1\"/>" :=
  ⟨rfl, rfl, by decide⟩

/-- C2 amended: `deparse (parse t)` reproduces `t` up to whitespace normalization
and excluded-tag opacity for paired tags — each paired tag is rendered with every
attribute and its value — but a self-closing tag is rendered as `<tag/>` with its
attributes dropped. -/
theorem c2_roundtrip_amended :
    (∀ (tag : String) (attrs : List (String × String)) (c : String),
      _repr_tag tag (some c) attrs =
        "<" ++ tag ++ reprAttrs attrs ++ ">" ++ c ++ "</" ++ tag ++ ">") ∧
    (∀ (tag : String) (attrs : List (String × String)),
      _repr_tag tag none attrs = "<" ++ tag ++ "/>") ∧
    deparse (parse "<a x=\"1\"><b>hi</b></a>" false []) = "<a x=\"1\"><b>hi</b></a>" ∧
    deparse (parse "text <u k=\"v\" w=\"z\">in</u> out" false []) =
      "text <u k=\"v\" w=\"z\">in</u> out" ∧
    deparse (parse "<a x=\"1\"/>" false []) = "<a/>" :=
  ⟨fun _ _ _ => rfl, fun _ _ => rfl, rfl, rfl, rfl⟩

/-- C9: `Manager.create_new_context` raises the naming-collision `ValueError`
for an already-registered `custom_id` before any mutation: the returned Manager
state is exactly the input state — the registry gained no entry and no
`child_ids` list changed. -/
theorem c9_custom_id_collision (m : MState) (parent_id fresh_id cid : String)
    (h : (get_context m cid).isSome = true) :
    create_new_context m parent_id fresh_id (some cid) =
      (m, .error ("Context ID '" ++ cid ++ "' already exists.")) := by
  simp [create_new_context, h]

theorem c9_witness :
    create_new_context [("P", ⟨none, ["A"], []⟩), ("A", ⟨some "P", [], []⟩)] "P" "f1"
        (some "A") =
      ([("P", ⟨none, ["A"], []⟩), ("A", ⟨some "P", [], []⟩)],
        .error "Context ID 'A' already exists.") :=
  c9_custom_id_collision _ "P" "f1" "A" (by decide)

/-- Whatever state the loop exits in, the post-loop fixup leaves Terminated. -/
theorem state_after_fixup (s3 : CtxState) :
    (if s3.state ≠ ContextState.terminated then { s3 with state := ContextState.terminated }
     else s3).state = ContextState.terminated := by
  split
  · rfl
  · next h2 => simpa using h2

/-- C7: whenever `Context.start` runs on an Idle context, its loop can only be
left with the state Terminated or with the turn budget exhausted, and the
post-loop fixup (`context.py:251`) forces Terminated in the latter case — so
`start` always returns with the context Terminated, under every environment. -/
theorem c7_start_always_terminates (tools : List String) (env : Nat → TurnEnv)
    (selfId : String) (parentId : Option String) (task : Option String) (ts0 : String)
    (max_turns : Nat) (s : CtxState) (h : s.state = ContextState.idle) :
    (Context.start tools env selfId parentId task ts0 max_turns s).state =
      ContextState.terminated := by
  unfold Context.start
  rw [if_neg (by simp [h])]
  exact state_after_fixup _

theorem c7_witness :
    (Context.start ["send", "create_context"]
        (fun _ => ⟨some "hello", [], none, "T1", "T2"⟩)
        "c1" none (some "go") "T0" 2 ⟨[], ContextState.idle, 0, []⟩).state =
      ContextState.terminated :=
  c7_start_always_terminates _ _ _ _ _ _ _ _ rfl

theorem get_context_mupdate_eq (m : MState) (cid : String) (f : MCtx → MCtx) :
    get_context (mupdate m cid f) cid = (get_context m cid).map f := by
  induction m with
  | nil => simp [mupdate, get_context]
  | cons kv rest ih =>
    obtain ⟨k, c⟩ := kv
    by_cases hk : k = cid
    · simp [mupdate, get_context, hk]
    · simp [mupdate, get_context, hk, ih]

theorem get_context_mupdate_ne (m : MState) (a b : String) (f : MCtx → MCtx)
    (h : b ≠ a) : get_context (mupdate m a f) b = get_context m b := by
  induction m with
  | nil => simp [mupdate, get_context]
  | cons kv rest ih =>
    obtain ⟨k, c⟩ := kv
    by_cases hk : k = a
    · subst hk
      simp [mupdate, get_context, Ne.symm h]
    · simp [mupdate, get_context, hk, ih]


/-- C4: `Manager.route_message` succeeds exactly when both ids are registered and
`to_id` is `from_id`'s recorded parent or one of its recorded children; on
success it appends exactly one element to the destination's `result_queue` and
leaves every other context untouched; on every failure (unknown id, sibling,
grandparent, cross-branch) it returns false and the Manager state — hence every
result queue — is unchanged. -/
theorem c4_route_message_correct (m : MState) (from_id to_id : String) (e : LItem) :
    ((route_message m from_id to_id e).1 = true ↔
      ∃ fc, get_context m from_id = some fc ∧ (get_context m to_id).isSome = true ∧
        (fc.parentId = some to_id ∨ to_id ∈ fc.childIds)) ∧
    ((route_message m from_id to_id e).1 = false → (route_message m from_id to_id e).2 = m) ∧
    ((route_message m from_id to_id e).1 = true →
      ∀ cid, cid ≠ to_id →
        get_context (route_message m from_id to_id e).2 cid = get_context m cid) ∧
    ((route_message m from_id to_id e).1 = true → ∀ tc, get_context m to_id = some tc →
      get_context (route_message m from_id to_id e).2 to_id =
        some { tc with queue := tc.queue ++ [e] }) := by
  rcases hf : get_context m from_id with _ | fc
  · refine ⟨?_, ?_, ?_, ?_⟩ <;> simp [route_message, hf]
  · rcases hg : get_context m to_id with _ | tc0
    · refine ⟨?_, ?_, ?_, ?_⟩ <;> simp [route_message, hf, hg]
    · simp only [route_message, hf, hg]
      split
      · next hcond =>
        refine ⟨?_, ?_, ?_, ?_⟩
        · constructor
          · intro _
            exact ⟨fc, rfl, by simp, by simpa using hcond⟩
          · intro _
            rfl
        · intro habs
          simp at habs
        · intro _ cid hcid
          dsimp only
          exact get_context_mupdate_ne m to_id cid _ hcid
        · intro _ tc htc
          injection htc with he
          subst he
          exact (get_context_mupdate_eq m to_id _).trans (by rw [hg]; rfl)
      · next hcond =>
        refine ⟨?_, ?_, ?_, ?_⟩
        · constructor
          · intro habs
            simp at habs
          · rintro ⟨fc', hfc', -, hor⟩
            injection hfc' with he
            subst he
            exact (hcond (by simpa using hor)).elim
        · intro _
          rfl
        · intro habs
          simp at habs
        · intro habs
          simp at habs


theorem c4_witness :
    ((route_message [("P", ⟨none, ["A"], []⟩), ("A", ⟨some "P", [], []⟩),
        ("B", ⟨some "P", [], []⟩)] "A" "B" (.text "e")).1 = false ∧
      (route_message [("P", ⟨none, ["A"], []⟩), ("A", ⟨some "P", [], []⟩),
        ("B", ⟨some "P", [], []⟩)] "A" "B" (.text "e")).2 =
        [("P", ⟨none, ["A"], []⟩), ("A", ⟨some "P", [], []⟩), ("B", ⟨some "P", [], []⟩)]) ∧
    (route_message [("P", ⟨none, ["A"], []⟩), ("A", ⟨some "P", [], []⟩),
        ("B", ⟨some "P", [], []⟩)] "A" "P" (.text "e")).1 = true ∧
    get_context (route_message [("P", ⟨none, ["A"], []⟩), ("A", ⟨some "P", [], []⟩),
        ("B", ⟨some "P", [], []⟩)] "A" "P" (.text "e")).2 "P" =
      some ⟨none, ["A"], [.text "e"]⟩ :=
  ⟨⟨rfl, (c4_route_message_correct [("P", ⟨none, ["A"], []⟩), ("A", ⟨some "P", [], []⟩),
        ("B", ⟨some "P", [], []⟩)] "A" "B" (.text "e")).2.1 rfl⟩,
    rfl,
    (c4_route_message_correct [("P", ⟨none, ["A"], []⟩), ("A", ⟨some "P", [], []⟩),
        ("B", ⟨some "P", [], []⟩)] "A" "P" (.text "e")).2.2.2 rfl ⟨none, ["A"], []⟩ rfl⟩

theorem route_message_shape (m : MState) (a b : String) (e : LItem) :
    route_message m a b e = (true, (route_message m a b e).2) ∨
    route_message m a b e = (false, m) := by
  rcases hca : get_context m a with _ | fc
  · exact Or.inr (by simp [route_message, hca])
  · rcases hcb : get_context m b with _ | tc
    · exact Or.inr (by simp [route_message, hca, hcb])
    · by_cases hc : (decide (fc.parentId = some b) || fc.childIds.contains b) = true
      · refine Or.inl ?_
        simp only [route_message, hca, hcb, hc]
        rfl
      · refine Or.inr ?_
        simp only [route_message, hca, hcb]
        rw [if_neg hc]

theorem sendResolved_shape (m : MState) (f : String) (attrs : List (String × String))
    (content : Option (List LItem)) (p : String) :
    (∃ msg, sendResolved m f attrs content p = sendPut msg attrs m) ∨
    ((sendResolved m f attrs content p).put = [] ∧
      (sendResolved m f attrs content p).raised = false ∧
      route_message m f p (.elem "send" [("from", f), ("to", p)] content) =
        (true, (sendResolved m f attrs content p).mgr)) := by
  unfold sendResolved
  have hshape := route_message_shape m f p (.elem "send" [("from", f), ("to", p)] content)
  rcases hr : route_message m f p (.elem "send" [("from", f), ("to", p)] content) with ⟨b, m2⟩
  rw [hr] at hshape
  rcases b
  · have hm2 : m2 = m := by
      rcases hshape with h | h
      · simp at h
      · injection h with _ h2
    subst hm2
    refine Or.inl ⟨"Error: Failed to send message to '" ++ p ++
      "'. Not found or permission denied.", ?_⟩
    simp only [hr]
  · refine Or.inr ⟨?_, ?_, ?_⟩
    · simp only [hr]
    · simp only [hr]
    · simp only [hr]

/-- C3 amended: every path of `SendTool.run` either performs one error put
(`sendPut msg attrs m`: the Manager untouched, and — second conjunct — exactly
one `output` element with `tool=send` followed by the invocation's echoed
attributes when the attributes rebind none of `tag`/`content`/`tool`, but a
`TypeError` escaping `run` with nothing enqueued when they do), or is the
success path: nothing on its own queue, no exception, and the `send` element
delivered to the destination's `result_queue` through `Manager.route_message`
("On success, no feedback is returned"). -/
theorem c3_send_tool_amended (m : MState) (context_id : Option String) (t : String)
    (attrs : List (String × String)) (content : Option (List LItem)) :
    ((∃ msg, sendToolRun m context_id (.elem t attrs content) = sendPut msg attrs m) ∨
      ((sendToolRun m context_id (.elem t attrs content)).put = [] ∧
        (sendToolRun m context_id (.elem t attrs content)).raised = false ∧
        ∃ from_id dest sent, context_id = some from_id ∧
          route_message m from_id dest sent =
            (true, (sendToolRun m context_id (.elem t attrs content)).mgr))) ∧
    (∀ (msg : String) (m' : MState), sendPut msg attrs m' =
        if sendKwargsOk attrs then
          ⟨[generate_element "output" ("\n" ++ msg ++ "\n") (("tool", "send") :: attrs)],
            m', false⟩
        else ⟨[], m', true⟩) := by
  refine ⟨?_, fun msg m' => rfl⟩
  rcases hto : aget attrs "to" with _ | raw
  · exact Or.inl ⟨"Error: The 'to' attribute is missing.", by simp [sendToolRun, hto]⟩
  · by_cases hraw : raw = ""
    · subst hraw
      exact Or.inl ⟨"Error: The 'to' attribute is missing.", by simp [sendToolRun, hto]⟩
    · rcases context_id with _ | f
      · exact Or.inl ⟨"Error: Sender context 'None' not found in Manager.",
          by simp [sendToolRun, hto, hraw]⟩
      · rcases hfc : get_context m f with _ | fc
        · exact Or.inl ⟨"Error: Sender context '" ++ f ++ "' not found in Manager.",
            by simp [sendToolRun, hto, hraw, hfc]⟩
        · by_cases hp : raw = "parent"
          · subst hp
            rcases hpar : fc.parentId with _ | p
            · exact Or.inl ⟨"Error: This context has no parent.",
                by simp [sendToolRun, hto, hfc, hpar]⟩
            · have heq : sendToolRun m (some f) (.elem t attrs content) =
                  sendResolved m f attrs content p := by
                simp [sendToolRun, hto, hfc, hpar]
              rw [heq]
              rcases sendResolved_shape m f attrs content p with ⟨msg, hres⟩ | ⟨h1, h2, h3⟩
              · exact Or.inl ⟨msg, hres⟩
              · exact Or.inr ⟨h1, h2, f, p, _, rfl, h3⟩
          · have heq : sendToolRun m (some f) (.elem t attrs content) =
                sendResolved m f attrs content raw := by
              simp [sendToolRun, hto, hraw, hfc, hp]
            rw [heq]
            rcases sendResolved_shape m f attrs content raw with ⟨msg, hres⟩ | ⟨h1, h2, h3⟩
            · exact Or.inl ⟨msg, hres⟩
            · exact Or.inr ⟨h1, h2, f, raw, _, rfl, h3⟩


/-- C3 counterexample: the claim demands exactly one `output` on the tool's own
result queue on every path.  A successful send enqueues zero elements on the
sender's queue (the message lands on the destination's queue with tag `send`,
not `output`); and a failing send whose invocation carries a `tool` attribute
raises `TypeError` at the `generate_element` call, enqueueing zero elements. -/
theorem c3_counterexample :
    sendToolRun [("P", ⟨none, ["A"], []⟩), ("A", ⟨some "P", [], []⟩)] (some "A")
        (.elem "send" [("to", "P")] (some [.text "hi"])) =
      ⟨[],
        [("P", ⟨none, ["A"], [.elem "send" [("from", "A"), ("to", "P")] (some [.text "hi"])]⟩),
         ("A", ⟨some "P", [], []⟩)],
        false⟩ ∧
    sendToolRun [("P", ⟨none, ["A"], []⟩), ("A", ⟨some "P", [], []⟩)] (some "A")
        (.elem "send" [("to", "Q"), ("tool", "x")] (some [.text "hi"])) =
      ⟨[], [("P", ⟨none, ["A"], []⟩), ("A", ⟨some "P", [], []⟩)], true⟩ :=
  ⟨rfl, rfl⟩

/-- C8: a turn whose parsed response contains no registered tool tag (zero
scheduled executions), no `wait` and no `finish` element, with an empty result
queue (nothing collected), appends exactly one synthetic `system` nudge entry
after the assistant entry and advances `turn_count` by exactly one, leaving the
state unchanged.  (Messages arriving during the turn remain queued.) -/
theorem c8_nudge_turn (tools : List String) (env : TurnEnv) (s : CtxState) (resp : String)
    (hresp : env.resp = some resp)
    (hq : s.queue = [])
    (hsched : process_llm_output tools (_sanitize_llm_response resp) = 0)
    (hwait : findall (parse (_sanitize_llm_response resp) false []) "wait" = [])
    (hfin : findall (parse (_sanitize_llm_response resp) false []) "finish" = []) :
    turnBody tools env s =
      { history := s.history ++
          [_add_to_history s.turnCount env.ts1 "assistant" (_sanitize_llm_response resp),
           _add_to_history (s.turnCount + 1) env.ts2 "system" nudgeMessage]
        state := s.state
        turnCount := s.turnCount + 1
        queue := env.arrivals } := by
  unfold turnBody
  rw [hresp]
  simp [hq, hsched, hwait]

theorem c8_witness :
    turnBody ["send", "create_context"] ⟨some "Okay.", [], none, "T1", "T2"⟩
        ⟨[], ContextState.running, 1, []⟩ =
      { history := [_add_to_history 1 "T1" "assistant" "Okay.",
                    _add_to_history 2 "T2" "system" nudgeMessage]
        state := ContextState.running
        turnCount := 2
        queue := [] } :=
  c8_nudge_turn ["send", "create_context"] ⟨some "Okay.", [], none, "T1", "T2"⟩
    ⟨[], ContextState.running, 1, []⟩ "Okay." rfl rfl (by decide) rfl rfl

theorem sealedList_append (excl : List String) (a b : List LItem) :
    sealedList excl (a ++ b) = (sealedList excl a && sealedList excl b) := by
  induction a with
  | nil => simp [sealedList]
  | cons x xs ih => simp [sealedList, ih, Bool.and_assoc]

theorem allText_sealed (excl : List String) (l : List LItem)
    (h : l.all isTextItem = true) : sealedList excl l = true := by
  induction l with
  | nil => rfl
  | cons x xs ih =>
    simp only [List.all_cons, Bool.and_eq_true] at h
    rcases x with s | ⟨t, a, c⟩
    · simp [sealedList, sealedItem, ih h.2]
    · simp [isTextItem] at h

theorem restoreItem_isText (m : List (String × String)) (x : LItem) :
    isTextItem (restoreItem m x) = isTextItem x := by
  cases x <;> simp [restoreItem, isTextItem]

theorem restoreList_allText (m : List (String × String)) (l : List LItem) :
    (restoreList m l).all isTextItem = l.all isTextItem := by
  induction l with
  | nil => rfl
  | cons x xs ih => simp [restoreList, List.all_cons, restoreItem_isText, ih]

mutual

theorem restoreItem_sealed (excl : List String) (m : List (String × String)) :
    ∀ x : LItem, sealedItem excl (restoreItem m x) = sealedItem excl x
  | .text s => by simp [restoreItem, sealedItem]
  | .elem t a c => by
    cases c with
    | none => simp [restoreItem, sealedItem, restoreContent, contentAllText, sealedContent]
    | some l =>
      simp only [restoreItem, sealedItem, restoreContent, contentAllText, sealedContent,
        restoreList_allText, restoreList_sealed excl m l]

theorem restoreList_sealed (excl : List String) (m : List (String × String)) :
    ∀ l : List LItem, sealedList excl (restoreList m l) = sealedList excl l
  | [] => rfl
  | x :: xs => by
    simp only [restoreList, sealedList, restoreItem_sealed excl m x,
      restoreList_sealed excl m xs]

end

def accsSealed (excl : List String) (s : List Frame) : Prop :=
  ∀ f ∈ s, sealedList excl f.acc = true

def openNotExcl (excl : List String) (s : List Frame) : Prop :=
  ∀ f ∈ s.dropLast, excl.contains f.tag = false

theorem closeOne_ne_nil (s : List Frame) (h : s ≠ []) : closeOne s ≠ [] := by
  match s with
  | [f] => simp [closeOne]
  | f :: g :: rest => simp [closeOne]

theorem closeToLen_ne_nil (fuel k : Nat) (s : List Frame) (h : s ≠ []) :
    closeToLen fuel k s ≠ [] := by
  induction fuel generalizing s with
  | zero => exact h
  | succ fuel ih =>
    unfold closeToLen
    split
    · exact h
    · exact ih (closeOne s) (closeOne_ne_nil s h)

theorem closeOne_inv (excl : List String) (s : List Frame)
    (h1 : accsSealed excl s) (h2 : openNotExcl excl s) :
    accsSealed excl (closeOne s) ∧ openNotExcl excl (closeOne s) := by
  match s with
  | [] => exact ⟨h1, h2⟩
  | [f] => exact ⟨h1, h2⟩
  | f :: g :: rest =>
    have hfex : excl.contains f.tag = false := h2 f (by simp [List.dropLast])
    have hfacc : sealedList excl f.acc = true := h1 f (by simp)
    have hgacc : sealedList excl g.acc = true := h1 g (by simp)
    constructor
    · intro x hx
      simp only [closeOne, List.mem_cons] at hx
      rcases hx with hx | hx
      · subst hx
        simp [sealedList_append, hgacc, sealedList, sealedItem, sealedContent, hfacc]
        exact Or.inl (by simpa using hfex)
      · exact h1 x (by simp [hx])
    · intro x hx
      rcases rest with _ | ⟨r, rest2⟩
      · simp [closeOne, List.dropLast] at hx
      · simp only [closeOne, List.dropLast, List.mem_cons] at hx
        rcases hx with hx | hx
        · subst hx
          simpa using h2 g (by simp [List.dropLast])
        · exact h2 x (by
            simp only [List.dropLast, List.mem_cons]
            exact Or.inr (Or.inr hx))

theorem closeToLen_inv (excl : List String) (fuel k : Nat) (s : List Frame)
    (h1 : accsSealed excl s) (h2 : openNotExcl excl s) :
    accsSealed excl (closeToLen fuel k s) ∧ openNotExcl excl (closeToLen fuel k s) := by
  induction fuel generalizing s with
  | zero => exact ⟨h1, h2⟩
  | succ fuel ih =>
    unfold closeToLen
    split
    · exact ⟨h1, h2⟩
    · obtain ⟨j1, j2⟩ := closeOne_inv excl s h1 h2
      exact ih (closeOne s) j1 j2

theorem closeOne_flagged_inv (excl : List String) (f : Frame) (rest : List Frame)
    (h1 : accsSealed excl (f :: rest)) (h2o : openNotExcl excl rest)
    (ht : f.acc.all isTextItem = true) :
    accsSealed excl (closeOne (f :: rest)) ∧ openNotExcl excl (closeOne (f :: rest)) := by
  match rest with
  | [] =>
    refine ⟨by simpa [closeOne] using h1, ?_⟩
    intro x hx
    simp [closeOne, List.dropLast] at hx
  | g :: rest2 =>
    have hgacc : sealedList excl g.acc = true := h1 g (by simp)
    constructor
    · intro x hx
      simp only [closeOne, List.mem_cons] at hx
      rcases hx with hx | hx
      · subst hx
        simp [sealedList_append, hgacc, sealedList, sealedItem, sealedContent,
          allText_sealed excl f.acc ht, contentAllText, ht]
      · exact h1 x (by simp [hx])
    · intro x hx
      rcases rest2 with _ | ⟨r, rest3⟩
      · simp [closeOne, List.dropLast] at hx
      · simp only [closeOne, List.dropLast, List.mem_cons] at hx
        rcases hx with hx | hx
        · subst hx
          simpa using h2o g (by simp [List.dropLast])
        · exact h2o x (by
            simp only [List.dropLast, List.mem_cons]
            exact Or.inr hx)

theorem pushText_shape (strip : Bool) (cs : List Char) (f : Frame) (rest : List Frame) :
    ∃ t, pushText strip cs (f :: rest) = { f with acc := f.acc ++ t } :: rest ∧
      t.all isTextItem = true := by
  by_cases he : (if strip then pyStripChars cs else cs).isEmpty
  · refine ⟨[], ?_, rfl⟩
    simp [pushText, he]
  · refine ⟨[.text ⟨if strip then pyStripChars cs else cs⟩], ?_, by simp [isTextItem]⟩
    simp [pushText, he]

theorem openNotExcl_cons (excl : List String) (f : Frame) (s : List Frame)
    (hf : excl.contains f.tag = false) (hs : openNotExcl excl s) :
    openNotExcl excl (f :: s) := by
  intro x hx
  rcases s with _ | ⟨a, s2⟩
  · simp [List.dropLast] at hx
  · simp only [List.dropLast, List.mem_cons] at hx
    rcases hx with hx | hx
    · subst hx
      exact hf
    · exact hs x hx

theorem openNotExcl_replace_head (excl : List String) (f f' : Frame)
    (h : f'.tag = f.tag) (rest : List Frame) (h2 : openNotExcl excl (f :: rest)) :
    openNotExcl excl (f' :: rest) := by
  intro x hx
  rcases rest with _ | ⟨r, rest2⟩
  · simp [List.dropLast] at hx
  · simp only [List.dropLast, List.mem_cons] at hx
    rcases hx with hx | hx
    · subst hx
      rw [h]
      exact h2 f (by simp [List.dropLast])
    · exact h2 x (by
        simp only [List.dropLast, List.mem_cons]
        exact Or.inr hx)

theorem closeOne_length (s : List Frame) (h : 2 ≤ s.length) :
    (closeOne s).length + 1 = s.length := by
  match s with
  | [] => simp at h
  | [f] => simp at h
  | f :: g :: rest => simp [closeOne]

theorem closeToLen_of_le (fuel k : Nat) (s : List Frame) (h : s.length ≤ k) :
    closeToLen fuel k s = s := by
  cases fuel with
  | zero => rfl
  | succ fuel =>
    unfold closeToLen
    rw [if_pos h]

theorem closeToLen_to_pred (s : List Frame) (h : 2 ≤ s.length) :
    closeToLen s.length (s.length - 1) s = closeOne s := by
  obtain ⟨fl, hfl⟩ : ∃ fl, s.length = fl + 1 := ⟨s.length - 1, by omega⟩
  have hk : s.length - 1 = fl := by omega
  rw [hk, hfl]
  unfold closeToLen
  rw [if_neg (by omega)]
  have hlen : (closeOne s).length = fl := by
    have := closeOne_length s h
    omega
  exact closeToLen_of_le fl fl (closeOne s) (by omega)

/-- The parser-fold invariant for the excluded-tag opacity argument: the stack is
nonempty, every accumulated content is sealed, and — depending on the
`tag_exclude` flag — either no open non-root frame carries an excluded tag, or
the flagged frame sits on top with pure literal content. -/
def PInv (excl : List String) (st : PState) : Prop :=
  st.stack ≠ [] ∧ accsSealed excl st.stack ∧
  (match st.excl with
   | none => openNotExcl excl st.stack
   | some n => ∃ f rest, st.stack = f :: rest ∧ f.tag = n ∧ rest ≠ [] ∧
       f.acc.all isTextItem = true ∧ openNotExcl excl rest)

theorem appendItem_inv (excl : List String) (s : List Frame) (it : LItem)
    (hne : s ≠ []) (hacc : accsSealed excl s) (hono : openNotExcl excl s)
    (hit : sealedItem excl it = true) :
    appendItem s it ≠ [] ∧ accsSealed excl (appendItem s it) ∧
      openNotExcl excl (appendItem s it) := by
  rcases s with _ | ⟨f, rest⟩
  · exact absurd rfl hne
  · refine ⟨by simp [appendItem], ?_, ?_⟩
    · intro x hx
      simp only [appendItem, List.mem_cons] at hx
      rcases hx with hx | hx
      · subst hx
        simp [sealedList_append, hacc f (by simp), sealedList, hit]
      · exact hacc x (by simp [hx])
    · show openNotExcl excl ({ f with acc := f.acc ++ [it] } :: rest)
      exact openNotExcl_replace_head excl f { f with acc := f.acc ++ [it] } rfl rest hono

theorem doTok_inv_noflag (strip : Bool) (excl : List String) (r : TokRec) (st : PState)
    (hne : st.stack ≠ []) (hacc : accsSealed excl st.stack)
    (hono : openNotExcl excl st.stack) (hexcl : st.excl = none) :
    PInv excl (doTok strip excl st r) := by
  rcases hs : st.stack with _ | ⟨f0, rest0⟩
  · exact absurd hs hne
  rw [hs] at hacc hono
  obtain ⟨t, hpush, htall⟩ := pushText_shape strip (st.pending ++ r.pre) f0 rest0
  have hacc1 : accsSealed excl (pushText strip (st.pending ++ r.pre) (f0 :: rest0)) := by
    rw [hpush]
    intro x hx
    simp only [List.mem_cons] at hx
    rcases hx with hx | hx
    · subst hx
      simp [sealedList_append, hacc f0 (by simp), allText_sealed excl t htall]
    · exact hacc x (by simp [hx])
  have hono1 : openNotExcl excl (pushText strip (st.pending ++ r.pre) (f0 :: rest0)) := by
    rw [hpush]
    exact openNotExcl_replace_head excl f0 _ (by simp) rest0 hono
  have hne1 : pushText strip (st.pending ++ r.pre) (f0 :: rest0) ≠ [] := by
    rw [hpush]
    simp
  unfold doTok PInv
  rw [hs]
  cases hrt : r.tok with
  | start name attrs =>
    dsimp only
    rw [hexcl]
    by_cases hc : excl.contains name = true
    · rw [if_pos hc]
      refine ⟨by simp, ?_, ?_⟩
      · intro x hx
        simp only [List.mem_cons] at hx
        rcases hx with hx | hx
        · subst hx
          rfl
        · exact hacc1 x hx
      · exact ⟨⟨name, attrs, []⟩, _, rfl, rfl, hne1, rfl, hono1⟩
    · rw [if_neg hc]
      refine ⟨by simp, ?_, ?_⟩
      · intro x hx
        simp only [List.mem_cons] at hx
        rcases hx with hx | hx
        · subst hx
          rfl
        · exact hacc1 x hx
      · exact openNotExcl_cons excl ⟨name, attrs, []⟩ _
          (by simpa using hc) hono1
  | empty name attrs =>
    dsimp only
    rw [hexcl]
    obtain ⟨a1, a2, a3⟩ := appendItem_inv excl _ (.elem name attrs none) hne1 hacc1 hono1
      (by simp [sealedItem, sealedContent, contentAllText])
    exact ⟨a1, a2, a3⟩
  | stop name =>
    dsimp only
    rw [hexcl]
    cases hidx : ((pushText strip (st.pending ++ r.pre) (f0 :: rest0)).dropLast).findIdx?
        (fun f => f.tag = name) with
    | some j =>
      dsimp only
      obtain ⟨b1, b2⟩ := closeToLen_inv excl _ _ _ hacc1 hono1
      exact ⟨closeToLen_ne_nil _ _ _ hne1, b1, b2⟩
    | none =>
      dsimp only
      obtain ⟨a1, a2, a3⟩ := appendItem_inv excl _ (.text ⟨r.txt⟩) hne1 hacc1 hono1
        (by simp [sealedItem])
      obtain ⟨b1, b2⟩ := closeToLen_inv excl _ _ _ a2 a3
      exact ⟨closeToLen_ne_nil _ _ _ a1, b1, b2⟩

theorem doTok_inv_flagclear (strip : Bool) (excl : List String) (r : TokRec) (st : PState)
    (name : String) (f : Frame) (rest : List Frame)
    (hs : st.stack = f :: rest) (htag : f.tag = name) (hrne : rest ≠ [])
    (hall : f.acc.all isTextItem = true)
    (hacc : accsSealed excl st.stack) (hono : openNotExcl excl rest)
    (hexcl : st.excl = none) (hrt : r.tok = .stop name) :
    PInv excl (doTok strip excl st r) := by
  rw [hs] at hacc
  obtain ⟨t, hpush, htall⟩ := pushText_shape strip (st.pending ++ r.pre) f rest
  have hall1 : (f.acc ++ t).all isTextItem = true := by
    simp [List.all_append, hall, htall]
  have hacc1 : accsSealed excl ({ f with acc := f.acc ++ t } :: rest) := by
    intro x hx
    simp only [List.mem_cons] at hx
    rcases hx with hx | hx
    · subst hx
      exact allText_sealed excl _ hall1
    · exact hacc x (by simp [hx])
  unfold doTok PInv
  rw [hs, hrt, hpush]
  dsimp only
  rcases rest with _ | ⟨g, rest2⟩
  · exact absurd rfl hrne
  have hfind : (({ f with acc := f.acc ++ t } :: g :: rest2 : List Frame).dropLast).findIdx?
      (fun x => x.tag = name) = some 0 := by
    have : (({ f with acc := f.acc ++ t } :: g :: rest2 : List Frame).dropLast) =
        { f with acc := f.acc ++ t } :: (g :: rest2).dropLast := by
      simp [List.dropLast]
    rw [this]
    simp [List.findIdx?_cons, htag]
  rw [hfind]
  dsimp only
  have hlen2 : 2 ≤ ({ f with acc := f.acc ++ t } :: g :: rest2 : List Frame).length := by
    simp
  have hpred := closeToLen_to_pred ({ f with acc := f.acc ++ t } :: g :: rest2) hlen2
  obtain ⟨c1, c2⟩ := closeOne_flagged_inv excl { f with acc := f.acc ++ t } (g :: rest2)
    hacc1 hono hall1
  rw [Nat.sub_zero, hpred]
  refine ⟨closeOne_ne_nil _ (by simp), c1, ?_⟩
  rw [hexcl]
  exact c2

theorem doSkip_inv (excl : List String) (r : TokRec) (st : PState)
    (h : PInv excl st) : PInv excl (doSkip st r) := h

theorem parseStep_inv (strip : Bool) (excl : List String) (r : TokRec) (st : PState)
    (h : PInv excl st) : PInv excl (parseStep strip excl st r) := by
  obtain ⟨hne, hacc, hflag⟩ := h
  unfold parseStep
  cases hex : st.excl with
  | none =>
    rw [hex] at hflag
    dsimp only
    exact doTok_inv_noflag strip excl r st hne hacc hflag hex
  | some n =>
    have hPInv : PInv excl st := ⟨hne, hacc, hflag⟩
    rw [hex] at hflag
    obtain ⟨f, rest, hs, htag, hrne, hall, hono⟩ := hflag
    cases hrt : r.tok with
    | start name attrs =>
      dsimp only
      exact doSkip_inv excl r st hPInv
    | empty name attrs =>
      dsimp only
      exact doSkip_inv excl r st hPInv
    | stop name =>
      dsimp only
      by_cases hname : name = n
      · rw [if_pos hname]
        exact doTok_inv_flagclear strip excl r { st with excl := none } name f rest hs
          (htag.trans hname.symm) hrne hall hacc hono rfl hrt
      · rw [if_neg hname]
        exact doSkip_inv excl r st hPInv

theorem foldl_parseStep_inv (strip : Bool) (excl : List String) :
    ∀ (toks : List TokRec) (st : PState), PInv excl st →
      PInv excl (toks.foldl (parseStep strip excl) st)
  | [], _, h => h
  | r :: rs, st, h =>
    foldl_parseStep_inv strip excl rs _ (parseStep_inv strip excl r st h)

theorem pushText_ne_nil (strip : Bool) (cs : List Char) (s : List Frame) (h : s ≠ []) :
    pushText strip cs s ≠ [] := by
  rcases s with _ | ⟨f, rest⟩
  · exact absurd rfl h
  · obtain ⟨t, hp, -⟩ := pushText_shape strip cs f rest
    rw [hp]
    simp

theorem closeToLen_step (fuel k : Nat) (s : List Frame) (h : ¬ s.length ≤ k) :
    closeToLen (fuel + 1) k s = closeToLen fuel k (closeOne s) := by
  show (if s.length ≤ k then s else closeToLen fuel k (closeOne s)) = _
  rw [if_neg h]

theorem closeToLen_one_inv (excl : List String) (s : List Frame)
    (hflag : (accsSealed excl s ∧ openNotExcl excl s) ∨
      (∃ f rest, s = f :: rest ∧ rest ≠ [] ∧ f.acc.all isTextItem = true ∧
        accsSealed excl s ∧ openNotExcl excl rest)) :
    accsSealed excl (closeToLen s.length 1 s) := by
  rcases hflag with ⟨h1, h2⟩ | ⟨f, rest, hs, hrne, hall, h1, hono⟩
  · exact (closeToLen_inv excl _ _ _ h1 h2).1
  · subst hs
    rcases rest with _ | ⟨g, rest2⟩
    · exact absurd rfl hrne
    rw [List.length_cons, closeToLen_step _ _ _ (by simp)]
    obtain ⟨c1, c2⟩ := closeOne_flagged_inv excl f (g :: rest2) h1 hono hall
    exact (closeToLen_inv excl _ _ _ c1 c2).1

theorem parse_sealed (text : String) (strip : Bool) (excl : List String) :
    sealedList excl (parse text strip excl) = true := by
  unfold parse parseAux
  rcases hp : protectAux (text.length + 1) 0 text.toList with ⟨ptext, protMap⟩
  dsimp only
  rcases hsc : scan ptext with ⟨toks, trail⟩
  dsimp only
  rw [restoreList_sealed]
  have hinv : PInv excl (toks.foldl (parseStep strip excl)
      ⟨[], none, [⟨"root", [], []⟩], []⟩) := by
    refine foldl_parseStep_inv strip excl toks _ ⟨by simp, ?_, ?_⟩
    · intro f hf
      simp only [List.mem_singleton] at hf
      subst hf
      rfl
    · intro f hf
      simp [List.dropLast] at hf
  set st1 := toks.foldl (parseStep strip excl) ⟨[], none, [⟨"root", [], []⟩], []⟩ with hst1
  obtain ⟨hne1, hacc1, hflag1⟩ := hinv
  have haccF : accsSealed excl
      (closeToLen (pushText strip (st1.pending ++ trail) st1.stack).length 1
        (pushText strip (st1.pending ++ trail) st1.stack)) := by
    rcases hsk : st1.stack with _ | ⟨f0, rest0⟩
    · exact absurd hsk hne1
    obtain ⟨t, hpush, htall⟩ := pushText_shape strip (st1.pending ++ trail) f0 rest0
    rw [hsk] at hacc1
    have haccP : accsSealed excl (pushText strip (st1.pending ++ trail) (f0 :: rest0)) := by
      rw [hpush]
      intro x hx
      simp only [List.mem_cons] at hx
      rcases hx with hx | hx
      · subst hx
        simp [sealedList_append, hacc1 f0 (by simp), allText_sealed excl t htall]
      · exact hacc1 x (by simp [hx])
    cases hex1 : st1.excl with
    | none =>
      rw [hex1] at hflag1
      rw [hsk] at hflag1
      refine closeToLen_one_inv excl _ (Or.inl ⟨haccP, ?_⟩)
      rw [hpush]
      exact openNotExcl_replace_head excl f0 _ (by simp) rest0 hflag1
    | some n =>
      rw [hex1] at hflag1
      obtain ⟨f, rest, hsf, htag, hrne, hall, hono⟩ := hflag1
      rw [hsk] at hsf
      injection hsf with he1 he2
      subst he1
      subst he2
      refine closeToLen_one_inv excl _ (Or.inr ⟨_, rest0, hpush, hrne, ?_, haccP, hono⟩)
      simp [List.all_append, hall, htall]
  rcases hcl : closeToLen (pushText strip (st1.pending ++ trail) st1.stack).length 1
      (pushText strip (st1.pending ++ trail) st1.stack) with _ | ⟨fR, rr⟩
  · exact absurd hcl (closeToLen_ne_nil _ _ _
      (pushText_ne_nil strip (st1.pending ++ trail) st1.stack hne1))
  · rw [hcl] at haccF
    dsimp only
    exact haccF fR (by simp)

/-- C10: under `System.process_llm_output`'s exclusion list — `define_tag`,
`rule`, `send`, `code` plus every registered tool tag except `create_context` —
every element of the parsed tree bearing an excluded tag has pure literal
content, so no `findall` match (hence no scheduled execution) can come from
inside such a body: nested tag text reaches the outer tool as opaque literal
content.  Concretely, a `bash` invocation nested inside a `bash` body or a
`send` nested there is not scheduled (count 1, the outermost element only),
while a tool tag nested inside a `create_context` body is still scheduled
(count 2), since `create_context` is the one tag left out of the exclusion
list. -/
theorem c10_nested_tool_tags_not_scheduled :
    (∀ (tools : List String) (text : String),
      sealedList (systemExcludeList tools) (parse text false (systemExcludeList tools)) = true) ∧
    process_llm_output ["bash", "send", "create_context"]
      "<bash>\n<bash/>\n<send to=\"x\">m</send>\n</bash>" = 1 ∧
    process_llm_output ["bash", "send", "create_context"]
      "<create_context><tools><tool name=\"bash\"/></tools><task>t</task>\n<bash>b</bash></create_context>" = 2 :=
  ⟨fun tools text => parse_sealed text false (systemExcludeList tools), rfl, rfl⟩


/-- Scan output is well spaced: each match lies at or beyond the running bound,
and every match advances the bound by at least 3 (the minimal tag is 3 chars). -/
inductive Spaced : Nat → List TokRec → Prop where
  | nil (b : Nat) : Spaced b []
  | cons (b : Nat) (r : TokRec) (rest : List TokRec) (hpos : b ≤ r.pos)
      (hrest : Spaced (r.pos + 3) rest) : Spaced b (r :: rest)

theorem Spaced.mono {b b' : Nat} {l : List TokRec} (h : Spaced b' l) (hb : b ≤ b') :
    Spaced b l := by
  cases h with
  | nil => exact .nil b
  | cons _ r rest hpos hrest => exact .cons b r rest (le_trans hb hpos) hrest

theorem matchTagAt_ge3 (cs : List Char) (tok : Tok) (n : Nat)
    (h : matchTagAt cs = some (tok, n)) : 3 ≤ n := by
  unfold matchTagAt at h
  split at h
  · dsimp only at h
    split at h
    · exact absurd h (by simp)
    · split at h
      · simp only [Option.some.injEq, Prod.mk.injEq] at h
        omega
      · exact absurd h (by simp)
  · next cs2 _ =>
    dsimp only at h
    split at h
    · exact absurd h (by simp)
    · next hne =>
      have hlen : 1 ≤ (cs2.takeWhile nameChar).length := by
        cases he : cs2.takeWhile nameChar with
        | nil => rw [he] at hne; simp at hne
        | cons a l => simp
      split at h
      · simp only [Option.some.injEq, Prod.mk.injEq] at h
        omega
      · simp only [Option.some.injEq, Prod.mk.injEq] at h
        omega
      · exact absurd h (by simp)
  · exact absurd h (by simp)

theorem scanAux_spaced (fuel : Nat) :
    ∀ (cs : List Char) (pos : Nat) (acc : List Char),
      Spaced pos (scanAux fuel cs pos acc).1 := by
  induction fuel with
  | zero => intro cs pos acc; exact .nil pos
  | succ fuel ih =>
    intro cs pos acc
    match cs with
    | [] => exact .nil pos
    | c :: cs =>
      unfold scanAux
      cases hm : matchTagAt (c :: cs) with
      | some t =>
        rcases t with ⟨tok, n⟩
        dsimp only
        rcases hrec : scanAux fuel ((c :: cs).drop n) (pos + n) [] with ⟨toks, trail⟩
        dsimp only
        refine .cons pos _ toks ?_ ?_
        · exact Nat.le_refl pos
        · have hsp := ih ((c :: cs).drop n) (pos + n) []
          rw [hrec] at hsp
          exact hsp.mono (by
            show pos + 3 ≤ pos + n
            have := matchTagAt_ge3 (c :: cs) tok n hm
            omega)
      | none =>
        dsimp only
        exact (ih cs (pos + 1) (c :: acc)).mono (by omega)

theorem pushText_length (strip : Bool) (cs : List Char) (s : List Frame) :
    (pushText strip cs s).length = s.length := by
  cases s with
  | nil =>
    unfold pushText
    dsimp only
    split <;> split <;> rfl
  | cons f rest =>
    rcases pushText_shape strip cs f rest with ⟨t, hp, _⟩
    rw [hp]
    rfl

theorem appendItem_length (s : List Frame) (it : LItem) :
    (appendItem s it).length = s.length := by
  cases s <;> rfl

theorem closeOne_length_le (s : List Frame) : (closeOne s).length ≤ s.length := by
  match s with
  | [] => exact Nat.le_refl 0
  | [f] => exact Nat.le_refl 1
  | f :: g :: rest => simp [closeOne]

theorem closeToLen_length_le (fuel k : Nat) (s : List Frame) :
    (closeToLen fuel k s).length ≤ s.length := by
  induction fuel generalizing s with
  | zero => exact Nat.le_refl _
  | succ fuel ih =>
    unfold closeToLen
    split
    · exact Nat.le_refl _
    · exact le_trans (ih (closeOne s)) (closeOne_length_le s)

theorem doTok_stack_le (strip : Bool) (exclude : List String) (st : PState) (r : TokRec) :
    (doTok strip exclude st r).stack.length ≤ st.stack.length + 1 := by
  have hp : (pushText strip (st.pending ++ r.pre) st.stack).length = st.stack.length :=
    pushText_length _ _ _
  unfold doTok
  cases htok : r.tok with
  | start name attrs =>
    dsimp only
    rw [List.length_cons, hp]
  | empty name attrs =>
    dsimp only
    rw [appendItem_length, hp]
    omega
  | stop name =>
    dsimp only
    cases hf : (pushText strip (st.pending ++ r.pre) st.stack).dropLast.findIdx?
        (fun f => f.tag = name) with
    | some j =>
      dsimp only
      have := closeToLen_length_le (pushText strip (st.pending ++ r.pre) st.stack).length
        ((pushText strip (st.pending ++ r.pre) st.stack).length - 1 - j)
        (pushText strip (st.pending ++ r.pre) st.stack)
      omega
    | none =>
      dsimp only
      have h1 := closeToLen_length_le
        ((appendItem (pushText strip (st.pending ++ r.pre) st.stack) (.text ⟨r.txt⟩)).length)
        (max 1 r.pos)
        (appendItem (pushText strip (st.pending ++ r.pre) st.stack) (.text ⟨r.txt⟩))
      have h2 := appendItem_length (pushText strip (st.pending ++ r.pre) st.stack)
        (.text ⟨r.txt⟩)
      omega

theorem parseStep_stack_le (strip : Bool) (exclude : List String) (st : PState) (r : TokRec) :
    (parseStep strip exclude st r).stack.length ≤ st.stack.length + 1 := by
  unfold parseStep
  cases he : st.excl with
  | none => exact doTok_stack_le strip exclude st r
  | some ex =>
    cases htok : r.tok with
    | start _ _ => exact Nat.le_succ _
    | empty _ _ => exact Nat.le_succ _
    | stop name =>
      dsimp only
      split
      · exact doTok_stack_le strip exclude { st with excl := none } r
      · exact Nat.le_succ _

theorem doTok_eq_NT (strip : Bool) (exclude : List String) (st : PState) (r : TokRec)
    (h : st.stack.length ≤ max 1 r.pos) :
    doTok strip exclude st r = doTokNT strip exclude st r := by
  unfold doTok doTokNT
  cases htok : r.tok with
  | start name attrs => rfl
  | empty name attrs => rfl
  | stop name =>
    dsimp only
    cases hf : (pushText strip (st.pending ++ r.pre) st.stack).dropLast.findIdx?
        (fun f => f.tag = name) with
    | some j => rfl
    | none =>
      dsimp only
      have hs : closeToLen
          ((appendItem (pushText strip (st.pending ++ r.pre) st.stack) (.text ⟨r.txt⟩)).length)
          (max 1 r.pos)
          (appendItem (pushText strip (st.pending ++ r.pre) st.stack) (.text ⟨r.txt⟩)) =
          appendItem (pushText strip (st.pending ++ r.pre) st.stack) (.text ⟨r.txt⟩) := by
        apply closeToLen_of_le
        rw [appendItem_length, pushText_length]
        exact h
      rw [hs]

theorem parseStep_eq_NT (strip : Bool) (exclude : List String) (st : PState) (r : TokRec)
    (h : st.stack.length ≤ max 1 r.pos) :
    parseStep strip exclude st r = parseStepNT strip exclude st r := by
  unfold parseStep parseStepNT
  cases he : st.excl with
  | none => exact doTok_eq_NT strip exclude st r h
  | some ex =>
    cases htok : r.tok with
    | start _ _ => rfl
    | empty _ _ => rfl
    | stop name =>
      dsimp only
      split
      · exact doTok_eq_NT strip exclude { st with excl := none } r h
      · rfl

theorem foldl_eq_NT (strip : Bool) (exclude : List String) :
    ∀ (toks : List TokRec) (st : PState) (b : Nat),
      Spaced b toks → 3 * (st.stack.length - 1) ≤ b →
      toks.foldl (parseStep strip exclude) st = toks.foldl (parseStepNT strip exclude) st := by
  intro toks
  induction toks with
  | nil => intro st b _ _; rfl
  | cons r rs ih =>
    intro st b hsp hb
    cases hsp with
    | cons _ _ _ hpos hrest =>
      have hL : st.stack.length ≤ max 1 r.pos := by
        rcases Nat.lt_or_ge st.stack.length 2 with h2 | h2
        · exact le_trans (by omega) (Nat.le_max_left 1 r.pos)
        · exact le_trans (by omega) (Nat.le_max_right 1 r.pos)
      rw [List.foldl_cons, List.foldl_cons, parseStep_eq_NT strip exclude st r hL]
      refine ih (parseStepNT strip exclude st r) (r.pos + 3) hrest ?_
      have hle := parseStep_stack_le strip exclude st r
      rw [parseStep_eq_NT strip exclude st r hL] at hle
      omega

theorem parseAux_eq_NT (text : String) (strip : Bool) (exclude : List String) :
    parseAux text strip exclude = parseAuxNT text strip exclude := by
  unfold parseAux parseAuxNT
  rcases hp : protectAux (text.length + 1) 0 text.toList with ⟨ptext, protMap⟩
  dsimp only
  rcases hsc : scan ptext with ⟨toks, trail⟩
  dsimp only
  have hsp : Spaced 0 toks := by
    have h0 := scanAux_spaced (ptext.length + 1) ptext 0 []
    unfold scan at hsc
    rw [hsc] at h0
    exact h0
  rw [foldl_eq_NT strip exclude toks
    { pending := [], excl := none, stack := [⟨"root", [], []⟩], warns := [] } 0 hsp
    (by decide)]

/-- C5: An end tag with no matching open ancestor is non-fatal on every input:
the parser warns, keeps the literal end-tag text as a text node at the current
nesting level, and closes no currently open frame.  The residual slice
`stack = stack[:max(1, ind_tag_start)]` in the source (whose index is the
match's character position, not a stack index) is proved to be a no-op on every
input, by showing the parser equal to the twin `parseAuxNT` that omits it; and
concretely `parse("</a>")` yields the literal text node `"</a>"` with the
unmatched-closing-tag diagnostic. -/
theorem c5_unmatched_end_tag :
    (∀ (text : String) (strip : Bool) (exclude : List String),
      parseAux text strip exclude = parseAuxNT text strip exclude) ∧
    parse "</a>" false [] = [.text "</a>"] ∧
    (parseAux "</a>" false []).2 = ["Warning: Unmatched closing tag </a> found."] :=
  ⟨parseAux_eq_NT, rfl, rfl⟩

/-! ### Universal backtick protection (claim C6)

`PATTERN_BACKTICK` is lazy with DOTALL: the first span runs from the first
backtick to the next one.  For every decomposition of the input into a
backtick-free prefix, a backtick-free span body and an arbitrary rest, the
protect phase excises the whole span (backticks included) before the tag
scanner ever runs, and recurses behind it. -/

theorem btfree_takeWhile (a : List Char) (ha : backtick ∉ a) :
    ∀ b : List Char,
      (a ++ b).takeWhile (fun c => !(c = backtick)) =
        a ++ b.takeWhile (fun c => !(c = backtick)) ∧
      (a ++ b).dropWhile (fun c => !(c = backtick)) =
        b.dropWhile (fun c => !(c = backtick)) := by
  induction a with
  | nil => intro b; exact ⟨rfl, rfl⟩
  | cons c a ih =>
    intro b
    rw [List.mem_cons] at ha
    push_neg at ha
    have hcb : ¬ c = backtick := fun h => ha.1 h.symm
    refine ⟨?_, ?_⟩
    · simp [List.takeWhile_cons, hcb, (ih ha.2 b).1]
    · simp [List.dropWhile_cons, hcb, (ih ha.2 b).2]

theorem btfree_takeWhile_all (a : List Char) (ha : backtick ∉ a) :
    a.takeWhile (fun c => !(c = backtick)) = a ∧
    a.dropWhile (fun c => !(c = backtick)) = [] := by
  induction a with
  | nil => exact ⟨rfl, rfl⟩
  | cons c a ih =>
    rw [List.mem_cons] at ha
    push_neg at ha
    have hcb : ¬ c = backtick := fun h => ha.1 h.symm
    refine ⟨?_, ?_⟩
    · simp [List.takeWhile_cons, hcb, (ih ha.2).1]
    · simp [List.dropWhile_cons, hcb, (ih ha.2).2]

theorem protectAux_btfree (fuel n : Nat) (cs : List Char) (h : backtick ∉ cs) :
    protectAux fuel n cs = (cs, []) := by
  cases fuel with
  | zero => rfl
  | succ fuel =>
    unfold protectAux
    rw [(btfree_takeWhile_all cs h).2]

theorem protectAux_span (fuel n : Nat) (pre s post : List Char)
    (hpre : backtick ∉ pre) (hs : backtick ∉ s) :
    protectAux (fuel + 1) n (pre ++ backtick :: (s ++ backtick :: post)) =
      (pre ++ ("__PROTECTED_" ++ Nat.repr n ++ "__").toList ++
          (protectAux fuel (n + 1) post).1,
        ("__PROTECTED_" ++ Nat.repr n ++ "__", ⟨backtick :: (s ++ [backtick])⟩) ::
          (protectAux fuel (n + 1) post).2) := by
  have hd1 : (pre ++ backtick :: (s ++ backtick :: post)).dropWhile
      (fun c => !(c = backtick)) = backtick :: (s ++ backtick :: post) := by
    rw [(btfree_takeWhile pre hpre _).2]
    simp [List.dropWhile_cons]
  have ht1 : (pre ++ backtick :: (s ++ backtick :: post)).takeWhile
      (fun c => !(c = backtick)) = pre := by
    rw [(btfree_takeWhile pre hpre _).1]
    simp [List.takeWhile_cons]
  have hd2 : (s ++ backtick :: post).dropWhile (fun c => !(c = backtick)) =
      backtick :: post := by
    rw [(btfree_takeWhile s hs _).2]
    simp [List.dropWhile_cons]
  have ht2 : (s ++ backtick :: post).takeWhile (fun c => !(c = backtick)) = s := by
    rw [(btfree_takeWhile s hs _).1]
    simp [List.takeWhile_cons]
  rcases hrec : protectAux fuel (n + 1) post with ⟨tail, maps⟩
  dsimp only
  unfold protectAux
  rw [hd1]
  dsimp only
  rw [hd2]
  dsimp only
  rw [ht1, ht2, hrec]

/-- The tag-scanning, tree-building and restore pipeline of `parse` after the
protect phase, as a function of the protected text and the recorded spans. -/
def parseCore (strip : Bool) (exclude : List String) (pt : List Char)
    (pm : List (String × String)) : LPMLTree × List String :=
  let (toks, trail) := scan pt
  let st0 : PState := { pending := [], excl := none, stack := [⟨"root", [], []⟩], warns := [] }
  let st1 := toks.foldl (parseStep strip exclude) st0
  let stackF := pushText strip (st1.pending ++ trail) st1.stack
  let warns :=
    if stackF.length > 1 then
      st1.warns ++ ["Warning: Unclosed elements remain: " ++
        pyListRepr ((stackF.reverse.drop 1).map Frame.tag)]
    else st1.warns
  let tree :=
    match closeToLen stackF.length 1 stackF with
    | f :: _ => f.acc
    | [] => []
  (restoreList pm tree, warns)

theorem parseAux_core (text : String) (strip : Bool) (exclude : List String) :
    parseAux text strip exclude =
      parseCore strip exclude (protectAux (text.length + 1) 0 text.toList).1
        (protectAux (text.length + 1) 0 text.toList).2 := by
  unfold parseAux parseCore
  rcases protectAux (text.length + 1) 0 text.toList with ⟨pt, pm⟩
  rfl

/-- `str.replace` restores the placeholder in the claim's frame: the span body
(and so the replacement) is arbitrary. -/
theorem pyReplace_frame (s : List Char) :
    pyReplace ⟨"before __PROTECTED_0__ after".toList⟩ "__PROTECTED_0__"
        ⟨backtick :: (s ++ [backtick])⟩ =
      ⟨"before ".toList ++ backtick :: ((s ++ [backtick]) ++ " after".toList)⟩ := rfl

theorem deparse_single_text (t : String) : deparse [.text t] = t := by
  show t ++ "" = t
  cases t with
  | mk data =>
    show String.mk (data ++ []) = String.mk data
    rw [List.append_nil]

/-- For every backtick-free span body, the claim's frame parses to the single
restored literal text node: nothing inside the span reaches the tag scanner. -/
theorem parse_frame (s : List Char) (hs : backtick ∉ s) :
    parse ⟨"before ".toList ++ backtick :: (s ++ backtick :: " after".toList)⟩ false [] =
      [.text ⟨"before ".toList ++ backtick :: (s ++ backtick :: " after".toList)⟩] := by
  have hprot : protectAux
      ((⟨"before ".toList ++ backtick :: (s ++ backtick :: " after".toList)⟩ : String).length + 1)
      0 (String.toList
        ⟨"before ".toList ++ backtick :: (s ++ backtick :: " after".toList)⟩) =
      ("before ".toList ++ ("__PROTECTED_" ++ Nat.repr 0 ++ "__").toList ++ " after".toList,
        [("__PROTECTED_" ++ Nat.repr 0 ++ "__", ⟨backtick :: (s ++ [backtick])⟩)]) := by
    have h0 := protectAux_span
      ((⟨"before ".toList ++ backtick :: (s ++ backtick :: " after".toList)⟩ : String).length)
      0 "before ".toList s " after".toList (by decide) hs
    rw [protectAux_btfree _ 1 _ (by decide)] at h0
    exact h0
  calc parse ⟨"before ".toList ++ backtick :: (s ++ backtick :: " after".toList)⟩ false []
      = (parseAux ⟨"before ".toList ++ backtick :: (s ++ backtick :: " after".toList)⟩
          false []).1 := rfl
    _ = (parseCore false []
          (protectAux
            ((⟨"before ".toList ++ backtick :: (s ++ backtick :: " after".toList)⟩ :
                String).length + 1)
            0 (String.toList
              ⟨"before ".toList ++ backtick :: (s ++ backtick :: " after".toList)⟩)).1
          (protectAux
            ((⟨"before ".toList ++ backtick :: (s ++ backtick :: " after".toList)⟩ :
                String).length + 1)
            0 (String.toList
              ⟨"before ".toList ++ backtick :: (s ++ backtick :: " after".toList)⟩)).2).1 := by
        rw [parseAux_core]
    _ = (parseCore false []
          ("before ".toList ++ ("__PROTECTED_" ++ Nat.repr 0 ++ "__").toList ++
            " after".toList)
          [("__PROTECTED_" ++ Nat.repr 0 ++ "__", ⟨backtick :: (s ++ [backtick])⟩)]).1 := by
        rw [hprot]
    _ = [.text (pyReplace ⟨"before __PROTECTED_0__ after".toList⟩ "__PROTECTED_0__"
          ⟨backtick :: (s ++ [backtick])⟩)] := rfl
    _ = [.text ⟨"before ".toList ++ backtick :: ((s ++ [backtick]) ++ " after".toList)⟩] := by
        rw [pyReplace_frame]
    _ = [.text ⟨"before ".toList ++ backtick :: (s ++ backtick :: " after".toList)⟩] := by
        rw [List.append_assoc]
        rfl

/-- C6: for every input that starts with a backtick-free prefix followed by a
backtick-delimited span — arbitrary span body, arbitrary rest — the protect
phase replaces the whole span (backticks included) by the placeholder before
the tag scanner runs, records the original for restoration, and continues
behind the span, so angle-bracketed text inside backticks never reaches the tag
scanner; in the claim's own frame, parsing "before \x60…\x60 after" yields, for
every backtick-free span body, the single byte-identically restored literal
text node — in particular no `x` element exists and `deparse` reproduces the
input — and restoration reaches nested content recursively. -/
theorem c6_backtick_protection :
    (∀ (fuel n : Nat) (pre s post : List Char), backtick ∉ pre → backtick ∉ s →
      protectAux (fuel + 1) n (pre ++ backtick :: (s ++ backtick :: post)) =
        (pre ++ ("__PROTECTED_" ++ Nat.repr n ++ "__").toList ++
            (protectAux fuel (n + 1) post).1,
          ("__PROTECTED_" ++ Nat.repr n ++ "__", ⟨backtick :: (s ++ [backtick])⟩) ::
            (protectAux fuel (n + 1) post).2)) ∧
    (∀ s : List Char, backtick ∉ s →
      parse ⟨"before ".toList ++ backtick :: (s ++ backtick :: " after".toList)⟩ false [] =
          [.text ⟨"before ".toList ++ backtick :: (s ++ backtick :: " after".toList)⟩] ∧
        findall (parse ⟨"before ".toList ++ backtick :: (s ++ backtick :: " after".toList)⟩
          false []) "x" = [] ∧
        deparse (parse ⟨"before ".toList ++ backtick :: (s ++ backtick :: " after".toList)⟩
          false []) = ⟨"before ".toList ++ backtick :: (s ++ backtick :: " after".toList)⟩) ∧
    parse "before `<x>` after" false [] = [.text "before `<x>` after"] ∧
    findall (parse "before `<x>` after" false []) "x" = [] ∧
    deparse (parse "before `<x>` after" false []) = "before `<x>` after" ∧
    parse "<a>`<x>`</a>" false [] = [.elem "a" [] (some [.text "`<x>`"])] ∧
    deparse (parse "<a>`<x>`</a>" false []) = "<a>`<x>`</a>" := by
  refine ⟨protectAux_span, ?_, rfl, rfl, rfl, rfl, rfl⟩
  intro s hs
  have h := parse_frame s hs
  refine ⟨h, ?_, ?_⟩
  · rw [h]
    rfl
  · rw [h]
    exact deparse_single_text _

theorem c6_witness :
    parse ⟨"before ".toList ++ backtick :: ("<x>".toList ++ backtick :: " after".toList)⟩
        false [] =
      [.text ⟨"before ".toList ++ backtick ::
        ("<x>".toList ++ backtick :: " after".toList)⟩] :=
  (c6_backtick_protection.2.1 "<x>".toList (by decide)).1
